import Mathlib

/-!
Verification of the detection post-processing pipeline of
`lib/darknet_detection.py` (class `ObjectDetection`), shallowly embedded in
Lean 4.  Floating point numbers are modelled by rationals, Python/numpy
integers by `ℤ`/`ℕ`.  Exceptions (`ValueError` from `np.argmax` on an empty
slice, `NameError` for an unbound local, `IndexError` for a list index out of
range) are modelled with `Except`.  The call to `cv.dnn.NMSBoxes` is embedded
following OpenCV's `NMSFast_` / `rectOverlap` semantics (greedy NMS over
boxes stably sorted by descending score, a candidate being kept iff its
overlap with every previously kept box is `≤ nms_threshold`, where two boxes
whose areas sum to `≤ 0` count as fully overlapping).
-/

namespace Darknet

/-- Python `int(x)` on a float: truncation toward zero. -/
def pyInt (q : ℚ) : ℤ := if 0 ≤ q then ⌊q⌋ else ⌈q⌉

/-- Clamp a value into the unit interval `[0,1]`. -/
def clamp01 (q : ℚ) : ℚ := max 0 (min 1 q)

/-- Round to the nearest integer, ties to even (Python's rounding mode). -/
def rndHalfEven (q : ℚ) : ℤ :=
  let f := ⌊q⌋
  let r := q - f
  if r < 1/2 then f
  else if 1/2 < r then f + 1
  else if f % 2 = 0 then f else f + 1

/-- Python `round(x, 3)`. -/
def pyRound3 (q : ℚ) : ℚ := (rndHalfEven (q * 1000) : ℚ) / 1000

/-- An axis-aligned pixel-space box `[left, top, width, height]` as appended
to the `boxes` list in `postprocess`. -/
structure Box where
  left : ℤ
  top : ℤ
  width : ℤ
  height : ℤ
deriving DecidableEq, Repr

/-- A decoded detection prior to suppression: one entry of the parallel
lists `classIds` / `confidences` / `boxes` built by the decode loop. -/
structure Candidate where
  classId : ℕ
  confidence : ℚ
  box : Box
deriving DecidableEq, Repr

/-- One final output record (the dict appended to `detections`). -/
structure Detection where
  label : String
  confidence : ℚ
  height : ℚ
  width : ℚ
  relative_x1 : ℚ
  relative_y1 : ℚ
  relative_x2 : ℚ
  relative_y2 : ℚ
deriving DecidableEq, Repr

/-- The exceptions the embedded pipeline can raise. -/
inductive PErr where
  /-- Python `ValueError`: `np.argmax` of an empty sequence. -/
  | valueError : PErr
  /-- Python `NameError`: local variable `label` referenced before assignment. -/
  | nameError : PErr
  /-- Python `IndexError`: `self.classes[classIds[i]]` with the index out of range. -/
  | indexError : PErr
deriving DecidableEq, Repr

/-- The state `ObjectDetection.__init__` stores: confidence threshold,
NMS threshold, model resolution and the loaded class table (`None` when no
classes file is given; `load_classes` abstracted to its resulting list). -/
structure Config where
  confThreshold : ℚ
  nmsThreshold : ℚ
  model_res : ℤ × ℤ
  classes : Option (List String)
deriving DecidableEq, Repr

/-- Embedding of `ObjectDetection.__init__`: it merely stores its parameters; it performs no
validation of the thresholds or the resolution. -/
def ObjectDetection_init (thr nms : ℚ) (model_res : ℤ × ℤ)
    (classes : Option (List String)) : Config :=
  { confThreshold := thr, nmsThreshold := nms, model_res := model_res,
    classes := classes }

/-- Tail of `np.argmax`: scan the remaining scores, keeping the first index
attaining the running maximum (numpy keeps the first occurrence on ties,
since only a strictly larger value replaces the current best). -/
def argmaxGo (bestI : ℕ) (bestV : ℚ) (i : ℕ) : List ℚ → ℕ × ℚ
  | [] => (bestI, bestV)
  | v :: rest =>
    if bestV < v then argmaxGo i v (i + 1) rest
    else argmaxGo bestI bestV (i + 1) rest

/-- Model of `np.argmax` on a score vector, paired with the value at that index
(`confidence = scores[classId]`); `none` models the `ValueError` raised on
an empty sequence. -/
def np_argmax : List ℚ → Option (ℕ × ℚ)
  | [] => none
  | v :: rest => some (argmaxGo 0 v 1 rest)

/-- The body of the decode loop of `postprocess` for a single row
`detection`: `scores = detection[5:]`, `classId = np.argmax(scores)`,
`confidence = scores[classId]`, and when `confidence > confThreshold` the
box geometry is scaled by `model_res` and truncated to pixels. -/
def decodeRow (thr : ℚ) (res : ℤ × ℤ) (det : List ℚ) :
    Except PErr (Option Candidate) :=
  match np_argmax (det.drop 5) with
  | none => .error .valueError
  | some (classId, confidence) =>
    if thr < confidence then
      let center_x := pyInt (det.getD 0 0 * (res.1 : ℚ))
      let center_y := pyInt (det.getD 1 0 * (res.2 : ℚ))
      let width := pyInt (det.getD 2 0 * (res.1 : ℚ))
      let height := pyInt (det.getD 3 0 * (res.2 : ℚ))
      let left := pyInt ((center_x : ℚ) - (width : ℚ) / 2)
      let top := pyInt ((center_y : ℚ) - (height : ℚ) / 2)
      .ok (some ⟨classId, confidence, ⟨left, top, width, height⟩⟩)
    else .ok none

/-- Inner loop `for detection in out` of the decode phase. -/
def decodeOut (thr : ℚ) (res : ℤ × ℤ) : List (List ℚ) →
    Except PErr (List Candidate)
  | [] => .ok []
  | det :: rest =>
    match decodeRow thr res det with
    | .error e => .error e
    | .ok oc =>
      match decodeOut thr res rest with
      | .error e => .error e
      | .ok cs => .ok (oc.toList ++ cs)

/-- Outer loop `for out in outs` of the decode phase of `postprocess`. -/
def decode (thr : ℚ) (res : ℤ × ℤ) : List (List (List ℚ)) →
    Except PErr (List Candidate)
  | [] => .ok []
  | out :: rest =>
    match decodeOut thr res out with
    | .error e => .error e
    | .ok cs =>
      match decode thr res rest with
      | .error e => .error e
      | .ok cs2 => .ok (cs ++ cs2)

/-- Embedding of `cv::Rect_::area()`. -/
def area (b : Box) : ℤ := b.width * b.height

/-- Area of `a & b` (OpenCV rectangle intersection: empty, hence area `0`,
unless both resulting extents are positive). -/
def interArea (a b : Box) : ℤ :=
  let x1 := max a.left b.left
  let y1 := max a.top b.top
  let x2 := min (a.left + a.width) (b.left + b.width)
  let y2 := min (a.top + a.height) (b.top + b.height)
  if 0 < x2 - x1 ∧ 0 < y2 - y1 then (x2 - x1) * (y2 - y1) else 0

/-- OpenCV `rectOverlap = 1 - jaccardDistance`: when the two areas sum to
`≤ 0` (degenerate boxes) `jaccardDistance` returns `0`, so the overlap is
`1`; otherwise it is `interArea / (areaA + areaB - interArea)`. -/
def rectOverlap (a b : Box) : ℚ :=
  if area a + area b ≤ 0 then 1
  else (interArea a b : ℚ) / ((area a : ℚ) + (area b : ℚ) - (interArea a b : ℚ))

/-- Intersection-over-union as the specification defines it:
`intersection_area / (areaA + areaB - intersection_area)`, with zero-area
boxes yielding IoU `0`. -/
def claimIoU (a b : Box) : ℚ :=
  if area a = 0 ∨ area b = 0 then 0
  else (interArea a b : ℚ) / ((area a : ℚ) + (area b : ℚ) - (interArea a b : ℚ))

/-- Index the scores starting at position `i` (helper for
`GetMaxScoreIndex`). -/
def pairsFrom (i : ℕ) : List ℚ → List (ℕ × ℚ)
  | [] => []
  | s :: rest => (i, s) :: pairsFrom (i + 1) rest

/-- OpenCV `GetMaxScoreIndex`: the `(index, score)` pairs whose score is
strictly above the score threshold, in index order. -/
def getMaxScoreIndex (scores : List ℚ) (st : ℚ) : List (ℕ × ℚ) :=
  (pairsFrom 0 scores).filter (fun p => st < p.2)

/-- Stable insertion by strictly descending score: `x` is placed before the
first element whose score is strictly smaller (the behaviour of
`std::stable_sort` with the `SortScorePairDescend` comparator). -/
def insDesc (x : ℕ × ℚ) : List (ℕ × ℚ) → List (ℕ × ℚ)
  | [] => [x]
  | y :: ys => if y.2 < x.2 then x :: y :: ys else y :: insDesc x ys

/-- Stable sort by descending score. -/
def sortDesc : List (ℕ × ℚ) → List (ℕ × ℚ)
  | [] => []
  | x :: xs => insDesc x (sortDesc xs)

/-- The default box used for total indexing (indices produced by
`getMaxScoreIndex` are always in range, so it is never reached). -/
def dfltBox : Box := ⟨0, 0, 0, 0⟩

/-- Overlap of the boxes at positions `k` and `i`. -/
def overlapAt (boxes : List Box) (k i : ℕ) : ℚ :=
  rectOverlap (boxes.getD k dfltBox) (boxes.getD i dfltBox)

/-- Greedy loop of OpenCV `NMSFast_`: a candidate is kept iff its overlap
with every previously kept box is `≤ nms_threshold` (adaptive threshold is
constant since `eta = 1`). -/
def nmsGo (boxes : List Box) (nt : ℚ) : List ℕ → List ℕ → List ℕ
  | [], kept => kept
  | i :: rest, kept =>
    if kept.all (fun k => decide (overlapAt boxes k i ≤ nt)) then
      nmsGo boxes nt rest (kept ++ [i])
    else nmsGo boxes nt rest kept

/-- Embedding of `cv.dnn.NMSBoxes(boxes, scores, score_threshold, nms_threshold)` with
default `eta = 1`, `top_k = 0`: filter by score, stably sort descending,
then run the greedy suppression. -/
def NMSBoxes (boxes : List Box) (scores : List ℚ) (st nt : ℚ) : List ℕ :=
  nmsGo boxes nt ((sortDesc (getMaxScoreIndex scores st)).map (fun p => p.1)) []

/-- Modelled from the spec: `calculate_relative_coords` is imported from
`lib/helpers.py`, a repository file absent from the snapshot.  Per the
specification's Coordinate Normalizer contract it maps the pixel-space
corners `(x1, y1, x2, y2)` to unit coordinates by dividing by the reference
resolution, clamping each value into `[0,1]`. -/
def calculate_relative_coords (corners : ℤ × ℤ × ℤ × ℤ) (res : ℤ × ℤ) :
    ℚ × ℚ × ℚ × ℚ :=
  (clamp01 ((corners.1 : ℚ) / (res.1 : ℚ)),
   clamp01 ((corners.2.1 : ℚ) / (res.2 : ℚ)),
   clamp01 ((corners.2.2.1 : ℚ) / (res.1 : ℚ)),
   clamp01 ((corners.2.2.2 : ℚ) / (res.2 : ℚ)))

/-- The dict appended to `detections` for one kept index: label already
resolved, confidence and the relative coordinates rounded to 3 decimals. -/
def mkDetection (shown : String) (conf : ℚ) (b : Box) (res : ℤ × ℤ) :
    Detection :=
  let rc := calculate_relative_coords
    (b.left, b.top, b.left + b.width, b.top + b.height) res
  { label := shown
    confidence := pyRound3 conf
    height := pyRound3 (rc.2.2.2 - rc.2.1)
    width := pyRound3 (rc.2.2.1 - rc.1)
    relative_x1 := pyRound3 rc.1
    relative_y1 := pyRound3 rc.2.1
    relative_x2 := pyRound3 rc.2.2.1
    relative_y2 := pyRound3 rc.2.2.2 }

/-- Embedding of `self.classes[classIds[i]]`: Python list indexing raises `IndexError`
when the (nonnegative) index is out of range. -/
def lookupLabel (cls : List String) (cid : ℕ) : Except PErr String :=
  if h : cid < cls.length then .ok (cls.get ⟨cid, h⟩) else .error .indexError

/-- The assembly loop `for i in indices` of `postprocess`.  The local
variable `label` is only assigned under `if self.classes:` (false for `None`
or an empty list), so it can be unbound (`none`) when first read by
`label if label else "Unknown"`, which then raises `NameError`; an empty
string is falsy and degrades to `"Unknown"`. -/
def assembleGo (cfg : Config) (classIds : List ℕ) (confidences : List ℚ)
    (boxes : List Box) (label : Option String) : List ℕ →
    Except PErr (List Detection)
  | [] => .ok []
  | i :: rest =>
    let step : Except PErr (Option String) :=
      match cfg.classes with
      | some cls =>
        if cls.isEmpty then .ok label
        else (lookupLabel cls (classIds.getD i 0)).map some
      | none => .ok label
    match step with
    | .error e => .error e
    | .ok none => .error .nameError
    | .ok (some lab) =>
      match assembleGo cfg classIds confidences boxes (some lab) rest with
      | .error e => .error e
      | .ok ds =>
        .ok (mkDetection (if lab = "" then "Unknown" else lab)
              (confidences.getD i 0) (boxes.getD i dfltBox)
              cfg.model_res :: ds)

/-- Embedding of `ObjectDetection.postprocess`: decode all rows of all output tensors,
suppress with `cv.dnn.NMSBoxes`, then assemble the kept indices into the
final detection dicts. -/
def postprocess (cfg : Config) (outs : List (List (List ℚ))) :
    Except PErr (List Detection) :=
  match decode cfg.confThreshold cfg.model_res outs with
  | .error e => .error e
  | .ok cands =>
    let boxes := cands.map (fun c => c.box)
    let confidences := cands.map (fun c => c.confidence)
    let classIds := cands.map (fun c => c.classId)
    let indices := NMSBoxes boxes confidences cfg.confThreshold cfg.nmsThreshold
    assembleGo cfg classIds confidences boxes none indices

/-- Constant `inpWidth = 320` hard-coded in `return_objects`. -/
def inpWidth : ℤ := 320

/-- Constant `inpHeight = 320` hard-coded in `return_objects`. -/
def inpHeight : ℤ := 320

/-- Embedding of `ObjectDetection.return_objects`: the blob handed to the network is
built at the fixed spatial size `(inpWidth, inpHeight)`; inference itself is
an external collaborator, modelled as a function from that spatial size to
the raw output tensors; its result is fed to `postprocess`. -/
def return_objects (cfg : Config)
    (infer : ℤ × ℤ → List (List (List ℚ))) : Except PErr (List Detection) :=
  postprocess cfg (infer (inpWidth, inpHeight))

/-! ### Arithmetic lemmas about the embedded primitives -/

theorem pyInt_nonneg {q : ℚ} (h : 0 ≤ q) : 0 ≤ pyInt q := by
  unfold pyInt
  rw [if_pos h]
  exact Int.floor_nonneg.mpr h

theorem rndHalfEven_ge_floor (q : ℚ) : ⌊q⌋ ≤ rndHalfEven q := by
  unfold rndHalfEven
  dsimp only
  split
  · exact le_refl _
  · split
    · exact le_of_lt (lt_add_one _)
    · split
      · exact le_refl _
      · exact le_of_lt (lt_add_one _)

theorem rndHalfEven_le_floor_add_one (q : ℚ) : rndHalfEven q ≤ ⌊q⌋ + 1 := by
  unfold rndHalfEven
  dsimp only
  split
  · exact le_of_lt (lt_add_one _)
  · split
    · exact le_refl _
    · split
      · exact le_of_lt (lt_add_one _)
      · exact le_refl _

theorem rndHalfEven_nonneg {q : ℚ} (h : 0 ≤ q) : 0 ≤ rndHalfEven q :=
  le_trans (Int.floor_nonneg.mpr h) (rndHalfEven_ge_floor q)

theorem rndHalfEven_le_of_le {q : ℚ} {n : ℤ} (h : q ≤ n) : rndHalfEven q ≤ n := by
  have hfl : ⌊q⌋ ≤ n := by
    have h2 := Int.floor_le_floor h
    simpa using h2
  rcases eq_or_lt_of_le hfl with heq | hlt
  · have hq : q ≤ (⌊q⌋ : ℚ) := by rw [heq]; exact h
    have hr : q - ⌊q⌋ < 1/2 := by linarith
    unfold rndHalfEven
    dsimp only
    rw [if_pos hr]
    exact le_of_eq heq
  · calc rndHalfEven q ≤ ⌊q⌋ + 1 := rndHalfEven_le_floor_add_one q
      _ ≤ n := by omega

theorem rndHalfEven_mono {q q' : ℚ} (h : q ≤ q') :
    rndHalfEven q ≤ rndHalfEven q' := by
  rcases eq_or_lt_of_le (Int.floor_le_floor h) with heq | hlt
  · have hr : q - (⌊q⌋ : ℚ) ≤ q' - (⌊q⌋ : ℚ) := by linarith
    unfold rndHalfEven
    dsimp only
    rw [← heq]
    split_ifs <;> first | omega | linarith
  · calc rndHalfEven q ≤ ⌊q⌋ + 1 := rndHalfEven_le_floor_add_one q
      _ ≤ ⌊q'⌋ := by omega
      _ ≤ rndHalfEven q' := rndHalfEven_ge_floor q'

theorem pyRound3_nonneg {q : ℚ} (h : 0 ≤ q) : 0 ≤ pyRound3 q := by
  unfold pyRound3
  have : (0 : ℤ) ≤ rndHalfEven (q * 1000) :=
    rndHalfEven_nonneg (by positivity)
  positivity

theorem pyRound3_le_one {q : ℚ} (h : q ≤ 1) : pyRound3 q ≤ 1 := by
  unfold pyRound3
  have h1 : rndHalfEven (q * 1000) ≤ (1000 : ℤ) :=
    rndHalfEven_le_of_le (by push_cast; linarith)
  rw [div_le_one (by norm_num)]
  exact_mod_cast h1

theorem pyRound3_mono {q q' : ℚ} (h : q ≤ q') : pyRound3 q ≤ pyRound3 q' := by
  unfold pyRound3
  have h1 : rndHalfEven (q * 1000) ≤ rndHalfEven (q' * 1000) :=
    rndHalfEven_mono (by linarith)
  have h2 : ((rndHalfEven (q * 1000) : ℚ)) ≤ (rndHalfEven (q' * 1000) : ℚ) := by
    exact_mod_cast h1
  linarith

theorem clamp01_nonneg (q : ℚ) : 0 ≤ clamp01 q := le_max_left 0 _

theorem clamp01_le_one (q : ℚ) : clamp01 q ≤ 1 := by
  unfold clamp01
  rcases le_total (min 1 q) 0 with h | h
  · rw [max_eq_left h]; norm_num
  · rw [max_eq_right h]; exact min_le_left 1 q

theorem clamp01_mono {q q' : ℚ} (h : q ≤ q') : clamp01 q ≤ clamp01 q' :=
  max_le_max (le_refl 0) (min_le_min (le_refl 1) h)

/-! ### Lemmas about the decode phase -/

theorem argmaxGo_snd (l : List ℚ) : ∀ bi bv i,
    (argmaxGo bi bv i l).2 = bv ∨ (argmaxGo bi bv i l).2 ∈ l := by
  induction l with
  | nil => intro bi bv i; left; rfl
  | cons v rest ih =>
    intro bi bv i
    unfold argmaxGo
    split
    · rcases ih i v (i + 1) with h | h
      · right; rw [h]; exact List.mem_cons_self v rest
      · right; exact List.mem_cons_of_mem v h
    · rcases ih bi bv (i + 1) with h | h
      · left; exact h
      · right; exact List.mem_cons_of_mem v h

theorem np_argmax_snd_mem {l : List ℚ} {p : ℕ × ℚ}
    (h : np_argmax l = some p) : p.2 ∈ l := by
  cases l with
  | nil => simp [np_argmax] at h
  | cons v rest =>
    simp only [np_argmax, Option.some_inj] at h
    rcases argmaxGo_snd rest 0 v 1 with h2 | h2
    · rw [← h, h2]; exact List.mem_cons_self v rest
    · rw [← h]; exact List.mem_cons_of_mem v h2

theorem decodeRow_ok_some {thr : ℚ} {res : ℤ × ℤ} {det : List ℚ}
    {c : Candidate} (h : decodeRow thr res det = .ok (some c)) :
    thr < c.confidence := by
  unfold decodeRow at h
  rcases hm : np_argmax (det.drop 5) with _ | p
  · rw [hm] at h; exact absurd h (by simp)
  · rw [hm] at h
    obtain ⟨i, v⟩ := p
    dsimp only at h
    by_cases hc : thr < v
    · rw [if_pos hc] at h
      simp only [Except.ok.injEq, Option.some.injEq] at h
      rw [← h]
      exact hc
    · rw [if_neg hc] at h
      exact absurd h (by simp)

theorem decodeRow_err {thr : ℚ} {res : ℤ × ℤ} {det : List ℚ} {e : PErr}
    (h : decodeRow thr res det = .error e) : e = .valueError := by
  unfold decodeRow at h
  rcases hm : np_argmax (det.drop 5) with _ | p
  · rw [hm] at h
    simp only [Except.error.injEq] at h
    exact h.symm
  · rw [hm] at h
    obtain ⟨i, v⟩ := p
    dsimp only at h
    by_cases hc : thr < v
    · rw [if_pos hc] at h; exact absurd h (by simp)
    · rw [if_neg hc] at h; exact absurd h (by simp)

theorem decodeRow_of_drop_nil {thr : ℚ} {res : ℤ × ℤ} {det : List ℚ}
    (h : det.drop 5 = []) : decodeRow thr res det = .error .valueError := by
  unfold decodeRow
  rw [h]
  rfl

theorem decodeRow_of_below {thr : ℚ} {res : ℤ × ℤ} {det : List ℚ}
    (hne : det.drop 5 ≠ []) (hle : ∀ x ∈ det.drop 5, x ≤ thr) :
    decodeRow thr res det = .ok none := by
  unfold decodeRow
  rcases hm : np_argmax (det.drop 5) with _ | p
  · rcases hd : det.drop 5 with _ | ⟨s, rest⟩
    · exact absurd hd hne
    · rw [hd] at hm
      simp [np_argmax] at hm
  · obtain ⟨i, v⟩ := p
    dsimp only
    have hv : v ∈ det.drop 5 := np_argmax_snd_mem hm
    rw [if_neg (not_lt.mpr (hle v hv))]

theorem decodeOut_conf {thr : ℚ} {res : ℤ × ℤ} {out : List (List ℚ)}
    {cs : List Candidate} (h : decodeOut thr res out = .ok cs) :
    ∀ c ∈ cs, thr < c.confidence := by
  induction out generalizing cs with
  | nil =>
    simp only [decodeOut, Except.ok.injEq] at h
    rw [← h]
    intro c hc
    exact absurd hc (List.not_mem_nil c)
  | cons det rest ih =>
    unfold decodeOut at h
    rcases hr : decodeRow thr res det with e | oc
    · rw [hr] at h; exact absurd h (by simp)
    · rw [hr] at h
      rcases ho : decodeOut thr res rest with e | cs2
      · rw [ho] at h; exact absurd h (by simp)
      · rw [ho] at h
        simp only [Except.ok.injEq] at h
        intro c hc
        rw [← h] at hc
        rcases List.mem_append.mp hc with hc1 | hc2
        · cases oc with
          | none => exact absurd hc1 (by simp)
          | some c0 =>
            have : c = c0 := by simpa using hc1
            rw [this]
            exact decodeRow_ok_some hr
        · exact ih ho c hc2

theorem decodeOut_err {thr : ℚ} {res : ℤ × ℤ} {out : List (List ℚ)} {e : PErr}
    (h : decodeOut thr res out = .error e) : e = .valueError := by
  induction out generalizing e with
  | nil => exact absurd h (by simp [decodeOut])
  | cons det rest ih =>
    unfold decodeOut at h
    rcases hr : decodeRow thr res det with e2 | oc
    · rw [hr] at h
      simp only [Except.error.injEq] at h
      rw [← h]
      exact decodeRow_err hr
    · rw [hr] at h
      rcases ho : decodeOut thr res rest with e2 | cs2
      · rw [ho] at h
        simp only [Except.error.injEq] at h
        rw [← h]
        exact ih ho
      · rw [ho] at h; exact absurd h (by simp)

theorem decodeOut_bad {thr : ℚ} {res : ℤ × ℤ} {out : List (List ℚ)}
    {det : List ℚ} (hmem : det ∈ out) (hnil : det.drop 5 = []) :
    decodeOut thr res out = .error .valueError := by
  induction out with
  | nil => exact absurd hmem (List.not_mem_nil det)
  | cons d rest ih =>
    unfold decodeOut
    rcases List.mem_cons.mp hmem with heq | hmem2
    · rw [← heq, decodeRow_of_drop_nil hnil]
    · rcases hr : decodeRow thr res d with e | oc
      · dsimp only
        rw [decodeRow_err hr]
      · dsimp only
        rw [ih hmem2]

theorem decode_conf {thr : ℚ} {res : ℤ × ℤ} {outs : List (List (List ℚ))}
    {cs : List Candidate} (h : decode thr res outs = .ok cs) :
    ∀ c ∈ cs, thr < c.confidence := by
  induction outs generalizing cs with
  | nil =>
    simp only [decode, Except.ok.injEq] at h
    rw [← h]
    intro c hc
    exact absurd hc (List.not_mem_nil c)
  | cons out rest ih =>
    unfold decode at h
    rcases ho : decodeOut thr res out with e | cs1
    · rw [ho] at h; exact absurd h (by simp)
    · rw [ho] at h
      rcases hrest : decode thr res rest with e | cs2
      · rw [hrest] at h; exact absurd h (by simp)
      · rw [hrest] at h
        simp only [Except.ok.injEq] at h
        intro c hc
        rw [← h] at hc
        rcases List.mem_append.mp hc with hc1 | hc2
        · exact decodeOut_conf ho c hc1
        · exact ih hrest c hc2

theorem decode_err {thr : ℚ} {res : ℤ × ℤ} {outs : List (List (List ℚ))}
    {e : PErr} (h : decode thr res outs = .error e) : e = .valueError := by
  induction outs generalizing e with
  | nil => exact absurd h (by simp [decode])
  | cons out rest ih =>
    unfold decode at h
    rcases ho : decodeOut thr res out with e2 | cs1
    · rw [ho] at h
      simp only [Except.error.injEq] at h
      rw [← h]
      exact decodeOut_err ho
    · rw [ho] at h
      rcases hrest : decode thr res rest with e2 | cs2
      · rw [hrest] at h
        simp only [Except.error.injEq] at h
        rw [← h]
        exact ih hrest
      · rw [hrest] at h; exact absurd h (by simp)

/-! ### Geometry lemmas: intersection, overlap, IoU -/

theorem interArea_nonneg (a b : Box) : 0 ≤ interArea a b := by
  unfold interArea
  dsimp only
  split
  · rename_i h
    exact le_of_lt (mul_pos h.1 h.2)
  · exact le_refl 0

theorem interArea_comm (a b : Box) : interArea a b = interArea b a := by
  unfold interArea
  rw [max_comm a.left b.left, max_comm a.top b.top,
    min_comm (a.left + a.width) (b.left + b.width),
    min_comm (a.top + a.height) (b.top + b.height)]

theorem rectOverlap_comm (a b : Box) : rectOverlap a b = rectOverlap b a := by
  unfold rectOverlap
  rw [interArea_comm a b, add_comm (area a) (area b),
    add_comm ((area a : ℚ)) ((area b : ℚ))]

theorem interArea_eq_zero_left {a : Box} (b : Box) (h : area a ≤ 0) :
    interArea a b = 0 := by
  have hwh : a.width ≤ 0 ∨ a.height ≤ 0 := by
    by_contra hc
    push_neg at hc
    have : 0 < area a := mul_pos hc.1 hc.2
    omega
  unfold interArea
  dsimp only
  rcases hwh with hw | hh
  · rw [if_neg]
    intro hcon
    have h1 : min (a.left + a.width) (b.left + b.width) ≤ a.left + a.width :=
      min_le_left _ _
    have h2 : a.left ≤ max a.left b.left := le_max_left _ _
    omega
  · rw [if_neg]
    intro hcon
    have h1 : min (a.top + a.height) (b.top + b.height) ≤ a.top + a.height :=
      min_le_left _ _
    have h2 : a.top ≤ max a.top b.top := le_max_left _ _
    omega

theorem interArea_le_left {a b : Box} (h : 0 < interArea a b) :
    interArea a b ≤ area a := by
  unfold interArea at h ⊢
  dsimp only at h ⊢
  by_cases hc : 0 < min (a.left + a.width) (b.left + b.width) - max a.left b.left ∧
      0 < min (a.top + a.height) (b.top + b.height) - max a.top b.top
  · rw [if_pos hc] at h ⊢
    have hx : min (a.left + a.width) (b.left + b.width) - max a.left b.left ≤
        a.width := by
      have h1 : min (a.left + a.width) (b.left + b.width) ≤ a.left + a.width :=
        min_le_left _ _
      have h2 : a.left ≤ max a.left b.left := le_max_left _ _
      omega
    have hy : min (a.top + a.height) (b.top + b.height) - max a.top b.top ≤
        a.height := by
      have h1 : min (a.top + a.height) (b.top + b.height) ≤ a.top + a.height :=
        min_le_left _ _
      have h2 : a.top ≤ max a.top b.top := le_max_left _ _
      omega
    unfold area
    exact mul_le_mul hx hy (le_of_lt hc.2) (by omega)
  · rw [if_neg hc] at h
    omega

theorem rectOverlap_nonneg (a b : Box) : 0 ≤ rectOverlap a b := by
  unfold rectOverlap
  split
  · norm_num
  · rename_i hs
    push_neg at hs
    rcases eq_or_lt_of_le (interArea_nonneg a b) with hz | hp
    · rw [← hz]
      simp
    · have h1 : interArea a b ≤ area a := interArea_le_left hp
      have h2 : interArea a b ≤ area b := by
        rw [interArea_comm]
        exact interArea_le_left (by rw [interArea_comm]; exact hp)
      have hb : (0 : ℤ) < area b := lt_of_lt_of_le hp h2
      have hden : (0 : ℚ) < (area a : ℚ) + (area b : ℚ) - (interArea a b : ℚ) := by
        have : (0 : ℤ) < area a + area b - interArea a b := by omega
        exact_mod_cast this
      positivity

theorem claimIoU_nonneg (a b : Box) : 0 ≤ claimIoU a b := by
  unfold claimIoU
  split
  · exact le_refl 0
  · rename_i hz
    push_neg at hz
    rcases eq_or_lt_of_le (interArea_nonneg a b) with hi | hp
    · rw [← hi]; simp
    · have h1 : interArea a b ≤ area a := interArea_le_left hp
      have h2 : interArea a b ≤ area b := by
        rw [interArea_comm]
        exact interArea_le_left (by rw [interArea_comm]; exact hp)
      have hden : (0 : ℚ) < (area a : ℚ) + (area b : ℚ) - (interArea a b : ℚ) := by
        have ha : (0 : ℤ) < area a := lt_of_lt_of_le hp h1
        have : (0 : ℤ) < area a + area b - interArea a b := by omega
        exact_mod_cast this
      positivity

theorem claimIoU_le_rectOverlap (a b : Box) : claimIoU a b ≤ rectOverlap a b := by
  unfold claimIoU
  split
  · exact rectOverlap_nonneg a b
  · rename_i hz
    push_neg at hz
    unfold rectOverlap
    split
    · rename_i hs
      have hzero : interArea a b = 0 := by
        rcases le_or_lt (area a) 0 with ha | ha
        · exact interArea_eq_zero_left b ha
        · have hb : area b ≤ 0 := by omega
          rw [interArea_comm]
          exact interArea_eq_zero_left a hb
      rw [hzero]
      norm_num
    · exact le_refl _

end Darknet

namespace Darknet

theorem decode_bad {thr : ℚ} {res : ℤ × ℤ} {outs : List (List (List ℚ))}
    {out : List (List ℚ)} {det : List ℚ} (hout : out ∈ outs) (hdet : det ∈ out)
    (hnil : det.drop 5 = []) : decode thr res outs = .error .valueError := by
  induction outs with
  | nil => exact absurd hout (List.not_mem_nil out)
  | cons o rest ih =>
    unfold decode
    rcases List.mem_cons.mp hout with heq | hmem2
    · rw [← heq, decodeOut_bad hdet hnil]
    · rcases ho : decodeOut thr res o with e | cs1
      · dsimp only
        rw [decodeOut_err ho]
      · dsimp only
        rw [ih hmem2]

theorem np_argmax_eq_none {l : List ℚ} (h : np_argmax l = none) : l = [] := by
  cases l with
  | nil => rfl
  | cons v rest => simp [np_argmax] at h

theorem decodeRow_error_drop_nil {thr : ℚ} {res : ℤ × ℤ} {det : List ℚ}
    {e : PErr} (h : decodeRow thr res det = .error e) : det.drop 5 = [] := by
  unfold decodeRow at h
  rcases hm : np_argmax (det.drop 5) with _ | p
  · exact np_argmax_eq_none hm
  · rw [hm] at h
    obtain ⟨i, v⟩ := p
    dsimp only at h
    by_cases hc : thr < v
    · rw [if_pos hc] at h; exact absurd h (by simp)
    · rw [if_neg hc] at h; exact absurd h (by simp)

theorem decodeRow_ok_of_long {thr : ℚ} {res : ℤ × ℤ} {det : List ℚ}
    (h : det.drop 5 ≠ []) : ∃ oc, decodeRow thr res det = .ok oc := by
  unfold decodeRow
  rcases hm : np_argmax (det.drop 5) with _ | p
  · exact absurd (np_argmax_eq_none hm) h
  · obtain ⟨i, v⟩ := p
    dsimp only
    by_cases hc : thr < v
    · rw [if_pos hc]
      exact ⟨_, rfl⟩
    · rw [if_neg hc]
      exact ⟨none, rfl⟩

theorem decodeOut_error_short {thr : ℚ} {res : ℤ × ℤ} {out : List (List ℚ)}
    {e : PErr} (h : decodeOut thr res out = .error e) :
    ∃ det ∈ out, det.drop 5 = [] := by
  induction out generalizing e with
  | nil => exact absurd h (by simp [decodeOut])
  | cons det rest ih =>
    unfold decodeOut at h
    rcases hr : decodeRow thr res det with e2 | oc
    · exact ⟨det, List.mem_cons_self det rest, decodeRow_error_drop_nil hr⟩
    · rw [hr] at h
      rcases ho : decodeOut thr res rest with e2 | cs2
      · rcases ih ho with ⟨d, hd, hdn⟩
        exact ⟨d, List.mem_cons_of_mem det hd, hdn⟩
      · rw [ho] at h; exact absurd h (by simp)

theorem decodeOut_ok_of_long {thr : ℚ} {res : ℤ × ℤ} {out : List (List ℚ)}
    (h : ∀ det ∈ out, det.drop 5 ≠ []) :
    ∃ cs, decodeOut thr res out = .ok cs := by
  induction out with
  | nil => exact ⟨[], rfl⟩
  | cons det rest ih =>
    rcases @decodeRow_ok_of_long thr res det
      (h det (List.mem_cons_self det rest)) with ⟨oc, hoc⟩
    rcases ih (fun d hd => h d (List.mem_cons_of_mem det hd)) with ⟨cs, hcs⟩
    refine ⟨oc.toList ++ cs, ?_⟩
    unfold decodeOut
    rw [hoc, hcs]

theorem decode_error_short {thr : ℚ} {res : ℤ × ℤ}
    {outs : List (List (List ℚ))} {e : PErr}
    (h : decode thr res outs = .error e) :
    ∃ out ∈ outs, ∃ det ∈ out, det.drop 5 = [] := by
  induction outs generalizing e with
  | nil => exact absurd h (by simp [decode])
  | cons out rest ih =>
    unfold decode at h
    rcases ho : decodeOut thr res out with e2 | cs1
    · rcases decodeOut_error_short ho with ⟨d, hd, hdn⟩
      exact ⟨out, List.mem_cons_self out rest, d, hd, hdn⟩
    · rw [ho] at h
      rcases hrest : decode thr res rest with e2 | cs2
      · rcases ih hrest with ⟨o, hmo, d, hd, hdn⟩
        exact ⟨o, List.mem_cons_of_mem out hmo, d, hd, hdn⟩
      · rw [hrest] at h; exact absurd h (by simp)

theorem decode_ok_of_long {thr : ℚ} {res : ℤ × ℤ}
    {outs : List (List (List ℚ))}
    (h : ∀ out ∈ outs, ∀ det ∈ out, det.drop 5 ≠ []) :
    ∃ cands, decode thr res outs = .ok cands := by
  induction outs with
  | nil => exact ⟨[], rfl⟩
  | cons out rest ih =>
    rcases @decodeOut_ok_of_long thr res out
      (h out (List.mem_cons_self out rest)) with ⟨cs, hcs⟩
    rcases ih (fun o hmo => h o (List.mem_cons_of_mem out hmo)) with ⟨cs2, hcs2⟩
    refine ⟨cs ++ cs2, ?_⟩
    unfold decode
    rw [hcs, hcs2]

/-! ### Lemmas about sorting and score/index enumeration -/

theorem insDesc_perm (x : ℕ × ℚ) (l : List (ℕ × ℚ)) :
    (insDesc x l).Perm (x :: l) := by
  induction l with
  | nil => exact List.Perm.refl _
  | cons y ys ih =>
    unfold insDesc
    split
    · exact List.Perm.refl _
    · exact List.Perm.trans (List.Perm.cons y ih) (List.Perm.swap x y ys)

theorem sortDesc_perm (l : List (ℕ × ℚ)) : (sortDesc l).Perm l := by
  induction l with
  | nil => exact List.Perm.refl _
  | cons x xs ih =>
    unfold sortDesc
    exact List.Perm.trans (insDesc_perm x (sortDesc xs)) (List.Perm.cons x ih)

theorem insDesc_sorted {l : List (ℕ × ℚ)} (x : ℕ × ℚ)
    (h : List.Pairwise (fun a b => b.2 ≤ a.2) l) :
    List.Pairwise (fun a b => b.2 ≤ a.2) (insDesc x l) := by
  induction l with
  | nil => exact List.pairwise_singleton _ x
  | cons y ys ih =>
    rcases List.pairwise_cons.mp h with ⟨h1, h2⟩
    unfold insDesc
    split
    · rename_i hlt
      refine List.pairwise_cons.mpr ⟨?_, h⟩
      intro z hz
      rcases List.mem_cons.mp hz with hzy | hzys
      · rw [hzy]; exact le_of_lt hlt
      · exact le_trans (h1 z hzys) (le_of_lt hlt)
    · rename_i hge
      refine List.pairwise_cons.mpr ⟨?_, ih h2⟩
      intro z hz
      rcases List.mem_cons.mp ((insDesc_perm x ys).mem_iff.mp hz) with hzx | hzys
      · rw [hzx]; exact le_of_not_lt hge
      · exact h1 z hzys

theorem sortDesc_sorted (l : List (ℕ × ℚ)) :
    List.Pairwise (fun a b => b.2 ≤ a.2) (sortDesc l) := by
  induction l with
  | nil => exact List.Pairwise.nil
  | cons x xs ih =>
    unfold sortDesc
    exact insDesc_sorted x ih

theorem pairsFrom_length (i : ℕ) (l : List ℚ) :
    (pairsFrom i l).length = l.length := by
  induction l generalizing i with
  | nil => rfl
  | cons s rest ih =>
    unfold pairsFrom
    simp [ih]

theorem mem_pairsFrom_snd_mem {p : ℕ × ℚ} {i : ℕ} {l : List ℚ}
    (h : p ∈ pairsFrom i l) : p.2 ∈ l := by
  induction l generalizing i with
  | nil => exact absurd h (List.not_mem_nil p)
  | cons s rest ih =>
    unfold pairsFrom at h
    rcases List.mem_cons.mp h with heq | hmem
    · rw [heq]; exact List.mem_cons_self s rest
    · exact List.mem_cons_of_mem s (ih hmem)

theorem mem_pairsFrom_fst_ge {p : ℕ × ℚ} {i : ℕ} {l : List ℚ}
    (h : p ∈ pairsFrom i l) : i ≤ p.1 := by
  induction l generalizing i with
  | nil => exact absurd h (List.not_mem_nil p)
  | cons s rest ih =>
    unfold pairsFrom at h
    rcases List.mem_cons.mp h with heq | hmem
    · rw [heq]
    · exact le_trans (Nat.le_succ i) (ih hmem)

theorem mem_pairsFrom_fst_lt {p : ℕ × ℚ} {i : ℕ} {l : List ℚ}
    (h : p ∈ pairsFrom i l) : p.1 < i + l.length := by
  induction l generalizing i with
  | nil => exact absurd h (List.not_mem_nil p)
  | cons s rest ih =>
    unfold pairsFrom at h
    rcases List.mem_cons.mp h with heq | hmem
    · rw [heq]; simp
    · have := ih hmem
      simp only [List.length_cons]
      omega

theorem mem_pairsFrom_snd_getD {p : ℕ × ℚ} {i : ℕ} {l : List ℚ}
    (h : p ∈ pairsFrom i l) : p.2 = l.getD (p.1 - i) 0 := by
  induction l generalizing i with
  | nil => exact absurd h (List.not_mem_nil p)
  | cons s rest ih =>
    unfold pairsFrom at h
    rcases List.mem_cons.mp h with heq | hmem
    · rw [heq]
      simp
    · have hge := mem_pairsFrom_fst_ge hmem
      have hv := ih hmem
      have hk : p.1 - i = (p.1 - (i + 1)) + 1 := by omega
      rw [hk]
      simpa using hv

theorem pairsFrom_mem {j : ℕ} {l : List ℚ} (i : ℕ) (h : j < l.length) :
    (i + j, l.getD j 0) ∈ pairsFrom i l := by
  induction l generalizing i j with
  | nil => simp at h
  | cons s rest ih =>
    unfold pairsFrom
    cases j with
    | zero => simp
    | succ j2 =>
      have h2 : j2 < rest.length := by simpa using h
      have := ih (i + 1) h2
      refine List.mem_cons_of_mem _ ?_
      have hidx : i + 1 + j2 = i + (j2 + 1) := by omega
      rw [hidx] at this
      simpa using this

theorem pairsFrom_fst_pairwise (i : ℕ) (l : List ℚ) :
    List.Pairwise (fun a b => a.1 ≠ b.1) (pairsFrom i l) := by
  induction l generalizing i with
  | nil => exact List.Pairwise.nil
  | cons s rest ih =>
    unfold pairsFrom
    refine List.pairwise_cons.mpr ⟨?_, ih (i + 1)⟩
    intro z hz
    have := mem_pairsFrom_fst_ge hz
    dsimp only
    omega

/-! ### Lemmas about the greedy suppression loop -/

theorem nmsGo_subset {boxes : List Box} {nt : ℚ} {x : ℕ} :
    ∀ order acc, x ∈ nmsGo boxes nt order acc → x ∈ acc ∨ x ∈ order := by
  intro order
  induction order with
  | nil =>
    intro acc h
    left
    simpa [nmsGo] using h
  | cons i rest ih =>
    intro acc h
    unfold nmsGo at h
    split at h
    · rcases ih (acc ++ [i]) h with hm | hm
      · rcases List.mem_append.mp hm with hm2 | hm2
        · left; exact hm2
        · right
          have : x = i := by simpa using hm2
          rw [this]
          exact List.mem_cons_self i rest
      · right; exact List.mem_cons_of_mem i hm
    · rcases ih acc h with hm | hm
      · left; exact hm
      · right; exact List.mem_cons_of_mem i hm

theorem nmsGo_length {boxes : List Box} {nt : ℚ} :
    ∀ order acc, (nmsGo boxes nt order acc).length ≤ acc.length + order.length := by
  intro order
  induction order with
  | nil =>
    intro acc
    simp [nmsGo]
  | cons i rest ih =>
    intro acc
    unfold nmsGo
    split
    · have := ih (acc ++ [i])
      simp only [List.length_append, List.length_cons, List.length_nil] at this ⊢
      omega
    · have := ih acc
      simp only [List.length_cons]
      omega

theorem nmsGo_good {boxes : List Box} {nt : ℚ} :
    ∀ order acc,
    (∀ k ∈ acc, ∀ j ∈ acc, k ≠ j → overlapAt boxes k j ≤ nt) →
    ∀ x ∈ nmsGo boxes nt order acc, ∀ y ∈ nmsGo boxes nt order acc, x ≠ y →
    overlapAt boxes x y ≤ nt := by
  intro order
  induction order with
  | nil =>
    intro acc hinv x hx y hy hxy
    rw [nmsGo] at hx hy
    exact hinv x hx y hy hxy
  | cons i rest ih =>
    intro acc hinv x hx y hy hxy
    unfold nmsGo at hx hy
    split at hx
    · rename_i hall
      rw [if_pos hall] at hy
      have hall2 : ∀ k ∈ acc, overlapAt boxes k i ≤ nt := by
        intro k hk
        have := List.all_eq_true.mp hall k hk
        exact of_decide_eq_true this
      refine ih (acc ++ [i]) ?_ x hx y hy hxy
      intro k hk j hj hkj
      rcases List.mem_append.mp hk with hk2 | hk2 <;>
        rcases List.mem_append.mp hj with hj2 | hj2
      · exact hinv k hk2 j hj2 hkj
      · have hji : j = i := by simpa using hj2
        rw [hji]
        exact hall2 k hk2
      · have hki : k = i := by simpa using hk2
        rw [hki]
        unfold overlapAt
        rw [rectOverlap_comm]
        exact hall2 j hj2
      · have hki : k = i := by simpa using hk2
        have hji : j = i := by simpa using hj2
        exact absurd (hki.trans hji.symm) hkj
    · rename_i hall
      rw [if_neg hall] at hy
      exact ih acc hinv x hx y hy hxy

theorem nmsGo_all {boxes : List Box} {nt : ℚ} :
    ∀ order acc,
    (∀ i ∈ order, ∀ k ∈ acc, overlapAt boxes k i ≤ nt) →
    List.Pairwise (fun k i => overlapAt boxes k i ≤ nt) order →
    nmsGo boxes nt order acc = acc ++ order := by
  intro order
  induction order with
  | nil =>
    intro acc h1 h2
    simp [nmsGo]
  | cons i rest ih =>
    intro acc h1 h2
    rcases List.pairwise_cons.mp h2 with ⟨hhd, htl⟩
    have hall : (acc.all fun k => decide (overlapAt boxes k i ≤ nt)) = true := by
      refine List.all_eq_true.mpr ?_
      intro k hk
      exact decide_eq_true (h1 i (List.mem_cons_self i rest) k hk)
    unfold nmsGo
    rw [if_pos hall]
    have h1' : ∀ j ∈ rest, ∀ k ∈ acc ++ [i], overlapAt boxes k j ≤ nt := by
      intro j hj k hk
      rcases List.mem_append.mp hk with hk2 | hk2
      · exact h1 j (List.mem_cons_of_mem i hj) k hk2
      · have hki : k = i := by simpa using hk2
        rw [hki]
        exact hhd j hj
    rw [ih (acc ++ [i]) h1' htl]
    simp

/-! ### Lemmas about `NMSBoxes` as a whole -/

theorem getD_mem_of_lt {α : Type} (l : List α) (i : ℕ) (d : α)
    (h : i < l.length) : l.getD i d ∈ l := by
  rw [List.getD_eq_getElem l d h]
  exact List.getElem_mem h

theorem NMSBoxes_length_le (boxes : List Box) (scores : List ℚ) (st nt : ℚ) :
    (NMSBoxes boxes scores st nt).length ≤ scores.length := by
  unfold NMSBoxes
  have h1 := @nmsGo_length boxes nt
    ((sortDesc (getMaxScoreIndex scores st)).map (fun p => p.1)) []
  have h2 : ((sortDesc (getMaxScoreIndex scores st)).map (fun p => p.1)).length =
      (getMaxScoreIndex scores st).length := by
    rw [List.length_map]
    exact (sortDesc_perm _).length_eq
  have h3 : (getMaxScoreIndex scores st).length ≤ scores.length := by
    unfold getMaxScoreIndex
    calc ((pairsFrom 0 scores).filter (fun p => decide (st < p.2))).length
        ≤ (pairsFrom 0 scores).length := List.length_filter_le _ _
      _ = scores.length := pairsFrom_length 0 scores
  simp only [List.length_nil] at h1
  omega

theorem NMSBoxes_mem_lt {boxes : List Box} {scores : List ℚ} {st nt : ℚ}
    {i : ℕ} (h : i ∈ NMSBoxes boxes scores st nt) : i < scores.length := by
  unfold NMSBoxes at h
  rcases nmsGo_subset _ _ h with hm | hm
  · exact absurd hm (List.not_mem_nil i)
  · rcases List.mem_map.mp hm with ⟨p, hp, hpi⟩
    have hp2 : p ∈ getMaxScoreIndex scores st := (sortDesc_perm _).mem_iff.mp hp
    have hp3 : p ∈ pairsFrom 0 scores := List.mem_of_mem_filter hp2
    have := mem_pairsFrom_fst_lt hp3
    omega


theorem NMSBoxes_good {boxes : List Box} {scores : List ℚ} {st nt : ℚ}
    {i j : ℕ} (hi : i ∈ NMSBoxes boxes scores st nt)
    (hj : j ∈ NMSBoxes boxes scores st nt) (hij : i ≠ j) :
    overlapAt boxes i j ≤ nt := by
  unfold NMSBoxes at hi hj
  exact nmsGo_good _ [] (by intro k hk; exact absurd hk (List.not_mem_nil k))
    i hi j hj hij

theorem rectOverlap_eq_claimIoU_of_pos {a b : Box} (ha : 0 < area a)
    (hb : 0 < area b) : rectOverlap a b = claimIoU a b := by
  unfold rectOverlap claimIoU
  rw [if_neg (by omega), if_neg (by push_neg; omega)]

theorem pairwise_map_fst_score {scores : List ℚ} {l : List (ℕ × ℚ)}
    (hmem : ∀ p ∈ l, p.2 = scores.getD p.1 0)
    (h : List.Pairwise (fun a b => b.2 ≤ a.2) l) :
    List.Pairwise (fun i j => scores.getD j 0 ≤ scores.getD i 0)
      (l.map (fun p => p.1)) := by
  rw [List.pairwise_map]
  induction l with
  | nil => exact List.Pairwise.nil
  | cons p rest ih =>
    rcases List.pairwise_cons.mp h with ⟨h1, h2⟩
    refine List.pairwise_cons.mpr ⟨?_, ?_⟩
    · intro q hq
      have e1 := hmem p (List.mem_cons_self p rest)
      have e2 := hmem q (List.mem_cons_of_mem p hq)
      rw [← e1, ← e2]
      exact h1 q hq
    · exact ih (fun q hq => hmem q (List.mem_cons_of_mem p hq)) h2

/-! ### Lemmas about candidate geometry and assembly -/

theorem decodeRow_dims {thr : ℚ} {res : ℤ × ℤ} {det : List ℚ} {c : Candidate}
    (hw : 0 ≤ det.getD 2 0) (hh : 0 ≤ det.getD 3 0)
    (hrw : 0 ≤ res.1) (hrh : 0 ≤ res.2)
    (h : decodeRow thr res det = .ok (some c)) :
    0 ≤ c.box.width ∧ 0 ≤ c.box.height := by
  unfold decodeRow at h
  rcases hm : np_argmax (det.drop 5) with _ | p
  · rw [hm] at h; exact absurd h (by simp)
  · rw [hm] at h
    obtain ⟨i, v⟩ := p
    dsimp only at h
    by_cases hc : thr < v
    · rw [if_pos hc] at h
      simp only [Except.ok.injEq, Option.some.injEq] at h
      rw [← h]
      constructor
      · exact pyInt_nonneg (mul_nonneg hw (by exact_mod_cast hrw))
      · exact pyInt_nonneg (mul_nonneg hh (by exact_mod_cast hrh))
    · rw [if_neg hc] at h
      exact absurd h (by simp)

theorem decodeOut_dims {thr : ℚ} {res : ℤ × ℤ} {out : List (List ℚ)}
    {cs : List Candidate}
    (hrows : ∀ det ∈ out, 0 ≤ det.getD 2 0 ∧ 0 ≤ det.getD 3 0)
    (hrw : 0 ≤ res.1) (hrh : 0 ≤ res.2)
    (h : decodeOut thr res out = .ok cs) :
    ∀ c ∈ cs, 0 ≤ c.box.width ∧ 0 ≤ c.box.height := by
  induction out generalizing cs with
  | nil =>
    simp only [decodeOut, Except.ok.injEq] at h
    rw [← h]
    intro c hc
    exact absurd hc (List.not_mem_nil c)
  | cons det rest ih =>
    unfold decodeOut at h
    rcases hr : decodeRow thr res det with e | oc
    · rw [hr] at h; exact absurd h (by simp)
    · rw [hr] at h
      rcases ho : decodeOut thr res rest with e | cs2
      · rw [ho] at h; exact absurd h (by simp)
      · rw [ho] at h
        simp only [Except.ok.injEq] at h
        intro c hc
        rw [← h] at hc
        rcases List.mem_append.mp hc with hc1 | hc2
        · cases oc with
          | none => exact absurd hc1 (by simp)
          | some c0 =>
            have hcc : c = c0 := by simpa using hc1
            rw [hcc]
            have hd := hrows det (List.mem_cons_self det rest)
            exact decodeRow_dims hd.1 hd.2 hrw hrh hr
        · exact ih (fun d hd => hrows d (List.mem_cons_of_mem det hd)) ho c hc2

theorem decode_dims {thr : ℚ} {res : ℤ × ℤ} {outs : List (List (List ℚ))}
    {cs : List Candidate}
    (hrows : ∀ out ∈ outs, ∀ det ∈ out, 0 ≤ det.getD 2 0 ∧ 0 ≤ det.getD 3 0)
    (hrw : 0 ≤ res.1) (hrh : 0 ≤ res.2)
    (h : decode thr res outs = .ok cs) :
    ∀ c ∈ cs, 0 ≤ c.box.width ∧ 0 ≤ c.box.height := by
  induction outs generalizing cs with
  | nil =>
    simp only [decode, Except.ok.injEq] at h
    rw [← h]
    intro c hc
    exact absurd hc (List.not_mem_nil c)
  | cons out rest ih =>
    unfold decode at h
    rcases ho : decodeOut thr res out with e | cs1
    · rw [ho] at h; exact absurd h (by simp)
    · rw [ho] at h
      rcases hrest : decode thr res rest with e | cs2
      · rw [hrest] at h; exact absurd h (by simp)
      · rw [hrest] at h
        simp only [Except.ok.injEq] at h
        intro c hc
        rw [← h] at hc
        rcases List.mem_append.mp hc with hc1 | hc2
        · exact decodeOut_dims (hrows out (List.mem_cons_self out rest)) hrw hrh ho c hc1
        · exact ih (fun o hmo => hrows o (List.mem_cons_of_mem out hmo)) hrest c hc2

theorem assembleGo_mem {cfg : Config} {classIds : List ℕ} {confidences : List ℚ}
    {boxes : List Box} {label : Option String} {idxs : List ℕ}
    {ds : List Detection} (h : assembleGo cfg classIds confidences boxes label idxs = .ok ds) :
    ∀ d ∈ ds, ∃ i ∈ idxs, ∃ s, d = mkDetection s (confidences.getD i 0)
      (boxes.getD i dfltBox) cfg.model_res := by
  induction idxs generalizing label ds with
  | nil =>
    simp only [assembleGo, Except.ok.injEq] at h
    rw [← h]
    intro d hd
    exact absurd hd (List.not_mem_nil d)
  | cons i rest ih =>
    unfold assembleGo at h
    rcases hstep : (match cfg.classes with
      | some cls =>
        if cls.isEmpty then Except.ok label
        else (lookupLabel cls (classIds.getD i 0)).map some
      | none => (Except.ok label : Except PErr (Option String))) with e | newLabel
    · rw [hstep] at h; exact absurd h (by simp)
    · rw [hstep] at h
      cases newLabel with
      | none => exact absurd h (by simp)
      | some lab =>
        dsimp only at h
        rcases hrest : assembleGo cfg classIds confidences boxes (some lab) rest with e | ds2
        · rw [hrest] at h; exact absurd h (by simp)
        · rw [hrest] at h
          simp only [Except.ok.injEq] at h
          intro d hd
          rw [← h] at hd
          rcases List.mem_cons.mp hd with hd1 | hd2
          · refine ⟨i, List.mem_cons_self i rest, (if lab = "" then "Unknown" else lab), ?_⟩
            exact hd1
          · rcases ih hrest d hd2 with ⟨j, hj, s, hs⟩
            exact ⟨j, List.mem_cons_of_mem i hj, s, hs⟩

theorem mkDetection_bounds {s : String} {conf : ℚ} {b : Box} {res : ℤ × ℤ}
    (hw : 0 ≤ b.width) (hh : 0 ≤ b.height)
    (hrw : 0 < res.1) (hrh : 0 < res.2) :
    0 ≤ (mkDetection s conf b res).relative_x1 ∧
    (mkDetection s conf b res).relative_x1 ≤ (mkDetection s conf b res).relative_x2 ∧
    (mkDetection s conf b res).relative_x2 ≤ 1 ∧
    0 ≤ (mkDetection s conf b res).relative_y1 ∧
    (mkDetection s conf b res).relative_y1 ≤ (mkDetection s conf b res).relative_y2 ∧
    (mkDetection s conf b res).relative_y2 ≤ 1 := by
  unfold mkDetection calculate_relative_coords
  dsimp only
  have hrwq : (0 : ℚ) < (res.1 : ℚ) := by exact_mod_cast hrw
  have hrhq : (0 : ℚ) < (res.2 : ℚ) := by exact_mod_cast hrh
  have hx : (b.left : ℚ) / (res.1 : ℚ) ≤ ((b.left + b.width : ℤ) : ℚ) / (res.1 : ℚ) := by
    apply (div_le_div_iff_of_pos_right hrwq).mpr
    push_cast
    have : (0 : ℚ) ≤ (b.width : ℚ) := by exact_mod_cast hw
    linarith
  have hy : (b.top : ℚ) / (res.2 : ℚ) ≤ ((b.top + b.height : ℤ) : ℚ) / (res.2 : ℚ) := by
    apply (div_le_div_iff_of_pos_right hrhq).mpr
    push_cast
    have : (0 : ℚ) ≤ (b.height : ℚ) := by exact_mod_cast hh
    linarith
  exact ⟨pyRound3_nonneg (clamp01_nonneg _), pyRound3_mono (clamp01_mono hx),
    pyRound3_le_one (clamp01_le_one _), pyRound3_nonneg (clamp01_nonneg _),
    pyRound3_mono (clamp01_mono hy), pyRound3_le_one (clamp01_le_one _)⟩

/-! ### Claim theorems -/

/-- C1 (counterexample): the claim's row `[0.5, 0.5, 0.2, 0.2, 0.9, 0.1]` at
416x416 with threshold 0.5 produces NO candidate, not one: the code slices
class scores as `detection[5:]`, so this row's score sub-vector is `[0.1]`
and its maximum `0.1` does not exceed `0.5`. -/
theorem C1_counterexample :
    decode (1/2) (416, 416) [[[1/2, 1/2, 1/5, 1/5, 9/10, 1/10]]] = .ok [] := by
  norm_num [decode, decodeOut, decodeRow, np_argmax, argmaxGo, pyInt]

/-- C1 (amended): with the code's row layout (field 4 is ignored and the
class scores start at `detection[5:]`), a row carrying `0.9, 0.1` at indices
5 and 6 — for any value of the ignored field — yields exactly one Candidate
with class_id 0, confidence 0.9 and box `(166, 166, 83, 83)` by truncation. -/
theorem C1_amended (objectness : ℚ) :
    decode (1/2) (416, 416) [[[1/2, 1/2, 1/5, 1/5, objectness, 9/10, 1/10]]] =
      .ok [⟨0, 9/10, ⟨166, 166, 83, 83⟩⟩] := by
  norm_num [decode, decodeOut, decodeRow, np_argmax, argmaxGo, pyInt]

/-- C2: every Candidate produced by the decode loop has confidence strictly
above the configured threshold, and a row whose class scores (the code's
`detection[5:]` sub-vector) are all at most the threshold yields no
Candidate. -/
theorem C2_threshold (thr : ℚ) (res : ℤ × ℤ) :
    (∀ outs cands, decode thr res outs = .ok cands →
      ∀ c ∈ cands, thr < c.confidence) ∧
    (∀ det : List ℚ, det.drop 5 ≠ [] → (∀ x ∈ det.drop 5, x ≤ thr) →
      decodeRow thr res det = .ok none) :=
  ⟨fun _ _ h => decode_conf h, fun _ hne hle => decodeRow_of_below hne hle⟩

/-- Witness for C2 at concrete inputs: the decoded candidate of a concrete
row has confidence 0.9 > 0.5, and a row whose scores are below 0.5 decodes
to no candidate. -/
theorem C2_threshold_witness :
    decode (1/2) (416, 416) [[[1/2, 1/2, 1/5, 1/5, 0, 9/10, 1/10]]] =
      .ok [⟨0, 9/10, ⟨166, 166, 83, 83⟩⟩] ∧
    (1/2 : ℚ) < (9/10 : ℚ) ∧
    decodeRow (1/2) (416, 416) [1/2, 1/2, 1/5, 1/5, 0, 3/10, 1/10] = .ok none := by
  have hdec : decode (1/2) (416, 416) [[[1/2, 1/2, 1/5, 1/5, 0, 9/10, 1/10]]] =
      .ok [⟨0, 9/10, ⟨166, 166, 83, 83⟩⟩] := by
    norm_num [decode, decodeOut, decodeRow, np_argmax, argmaxGo, pyInt]
  refine ⟨hdec, ?_, ?_⟩
  · have h := (C2_threshold (1/2) (416, 416)).1 _ _ hdec
      ⟨0, 9/10, ⟨166, 166, 83, 83⟩⟩ (by simp)
    simpa using h
  · refine (C2_threshold (1/2) (416, 416)).2 [1/2, 1/2, 1/5, 1/5, 0, 3/10, 1/10]
      (by simp) ?_
    intro x hx
    simp only [List.drop, List.mem_cons, List.not_mem_nil, or_false] at hx
    rcases hx with h | h <;> rw [h] <;> norm_num

/-- C3 (counterexample): OpenCV's NMS keeps a candidate when its overlap
with every kept box is `≤ nms_threshold`, so two boxes whose IoU is exactly
the threshold (here 1/2) are BOTH kept — the strict inequality
`IoU < iou_threshold` claimed for kept pairs fails. -/
theorem C3_counterexample :
    NMSBoxes [⟨0, 0, 2, 2⟩, ⟨0, 0, 2, 1⟩] [9/10, 8/10] 0 (1/2) = [0, 1] ∧
    claimIoU ⟨0, 0, 2, 2⟩ ⟨0, 0, 2, 1⟩ = 1/2 ∧
    ¬ claimIoU ⟨0, 0, 2, 2⟩ ⟨0, 0, 2, 1⟩ < 1/2 := by
  refine ⟨?_, ?_, ?_⟩ <;>
    norm_num [NMSBoxes, nmsGo, sortDesc, insDesc, getMaxScoreIndex, pairsFrom,
      overlapAt, rectOverlap, claimIoU, area, interArea]

/-- C3 (amended): the suppression step keeps at most as many candidates as
it is given, an empty candidate list yields an empty kept set, and any two
distinct kept candidates have IoU (as the spec defines it, zero-area boxes
giving 0) at most — not strictly below — the configured NMS threshold. -/
theorem C3_amended (cands : List Candidate) (st nt : ℚ) :
    (NMSBoxes (cands.map fun c => c.box) (cands.map fun c => c.confidence)
        st nt).length ≤ cands.length ∧
    (cands = [] → NMSBoxes (cands.map fun c => c.box)
        (cands.map fun c => c.confidence) st nt = []) ∧
    (∀ i ∈ NMSBoxes (cands.map fun c => c.box)
        (cands.map fun c => c.confidence) st nt,
     ∀ j ∈ NMSBoxes (cands.map fun c => c.box)
        (cands.map fun c => c.confidence) st nt,
     i ≠ j →
     claimIoU ((cands.map fun c => c.box).getD i dfltBox)
       ((cands.map fun c => c.box).getD j dfltBox) ≤ nt) := by
  refine ⟨?_, ?_, ?_⟩
  · have h := NMSBoxes_length_le (cands.map fun c => c.box)
      (cands.map fun c => c.confidence) st nt
    rwa [List.length_map] at h
  · intro hc
    rw [hc]
    rfl
  · intro i hi j hj hij
    have h := NMSBoxes_good hi hj hij
    unfold overlapAt at h
    exact le_trans (claimIoU_le_rectOverlap _ _) h

/-- Two concrete overlapping candidates used to exercise the suppression
properties. -/
def twoOverlapping : List Candidate :=
  [⟨0, 9/10, ⟨0, 0, 2, 2⟩⟩, ⟨1, 8/10, ⟨0, 0, 2, 1⟩⟩]

/-- Witness for C3: on two concrete overlapping candidates both indices are
kept and their IoU is at most the threshold 1/2. -/
theorem C3_amended_witness :
    NMSBoxes (twoOverlapping.map fun c => c.box)
      (twoOverlapping.map fun c => c.confidence) 0 (1/2) = [0, 1] ∧
    claimIoU ⟨0, 0, 2, 2⟩ ⟨0, 0, 2, 1⟩ ≤ 1/2 := by
  have hk : NMSBoxes (twoOverlapping.map fun c => c.box)
      (twoOverlapping.map fun c => c.confidence) 0 (1/2) = [0, 1] := by
    norm_num [twoOverlapping, NMSBoxes, nmsGo, sortDesc, insDesc,
      getMaxScoreIndex, pairsFrom, overlapAt, rectOverlap, area, interArea]
  refine ⟨hk, ?_⟩
  have h := (C3_amended twoOverlapping 0 (1/2)).2.2
    0 (by rw [hk]; simp) 1 (by rw [hk]; simp) (by simp)
  simpa [twoOverlapping, dfltBox] using h

/-- C4 (code bug): the claim says a missing class table or an out-of-range
class id degrade the label to "Unknown".  In the code `label` is only
assigned under `if self.classes:`, so with no class table the expression
`label if label else "Unknown"` raises `NameError`, and an out-of-range
`classIds[i]` raises `IndexError` from `self.classes[classIds[i]]`; both
abort `postprocess` instead of producing a Detection. -/
theorem C4_label_failure :
    postprocess ⟨1/2, 2/5, (416, 416), none⟩
      [[[1/2, 1/2, 1/5, 1/5, 0, 9/10, 1/10]]] = .error .nameError ∧
    postprocess ⟨1/2, 2/5, (416, 416), some ["person"]⟩
      [[[1/2, 1/2, 1/5, 1/5, 0, 1/10, 9/10]]] = .error .indexError := by
  constructor <;>
    norm_num [postprocess, decode, decodeOut, decodeRow, np_argmax, argmaxGo,
      pyInt, NMSBoxes, nmsGo, sortDesc, insDesc, getMaxScoreIndex, pairsFrom,
      overlapAt, rectOverlap, area, interArea, assembleGo, lookupLabel,
      Except.map]

/-- C5: every Detection the pipeline emits has its relative coordinates in
`[0, 1]` with `x1 ≤ x2` and `y1 ≤ y2`, given a positive model resolution and
raw rows whose width/height fractions (fields 2 and 3) are nonnegative; the
normalizer (modelled from the spec) clamps out-of-range values into `[0,1]`
and 3-decimal rounding preserves the bounds. -/
theorem C5_normalization_bounds (cfg : Config) (outs : List (List (List ℚ)))
    (dets : List Detection)
    (hrw : 0 < cfg.model_res.1) (hrh : 0 < cfg.model_res.2)
    (hrows : ∀ out ∈ outs, ∀ det ∈ out, 0 ≤ det.getD 2 0 ∧ 0 ≤ det.getD 3 0)
    (hok : postprocess cfg outs = .ok dets) :
    ∀ d ∈ dets, 0 ≤ d.relative_x1 ∧ d.relative_x1 ≤ d.relative_x2 ∧
      d.relative_x2 ≤ 1 ∧ 0 ≤ d.relative_y1 ∧ d.relative_y1 ≤ d.relative_y2 ∧
      d.relative_y2 ≤ 1 := by
  unfold postprocess at hok
  rcases hdec : decode cfg.confThreshold cfg.model_res outs with e | cands
  · rw [hdec] at hok; exact absurd hok (by simp)
  · rw [hdec] at hok
    dsimp only at hok
    intro d hd
    rcases assembleGo_mem hok d hd with ⟨i, hi, s, hs⟩
    have hdims : 0 ≤ ((cands.map fun c => c.box).getD i dfltBox).width ∧
        0 ≤ ((cands.map fun c => c.box).getD i dfltBox).height := by
      by_cases hlen : i < (cands.map fun c => c.box).length
      · have hmem := getD_mem_of_lt (cands.map fun c => c.box) i dfltBox hlen
        rcases List.mem_map.mp hmem with ⟨c, hc, hcb⟩
        rw [← hcb]
        exact decode_dims hrows (le_of_lt hrw) (le_of_lt hrh) hdec c hc
      · have hdflt : (cands.map fun c => c.box).getD i dfltBox = dfltBox := by
          rw [List.getD_eq_getElem?_getD, List.getElem?_eq_none (by omega)]
          rfl
        rw [hdflt]
        exact ⟨le_refl 0, le_refl 0⟩
    rw [hs]
    exact mkDetection_bounds hdims.1 hdims.2 hrw hrh

/-- Witness for C5: a concrete one-row pipeline run produces one Detection
whose relative coordinates satisfy all the bounds. -/
theorem C5_normalization_bounds_witness :
    postprocess ⟨1/2, 2/5, (416, 416), some ["person"]⟩
        [[[1/2, 1/2, 1/5, 1/5, 0, 9/10]]] =
      .ok [⟨"person", 9/10, 1/5, 1/5, 399/1000, 399/1000, 599/1000, 599/1000⟩] ∧
    (0 ≤ (399/1000 : ℚ) ∧ (399/1000 : ℚ) ≤ (599/1000 : ℚ) ∧
      (599/1000 : ℚ) ≤ 1 ∧ 0 ≤ (399/1000 : ℚ) ∧
      (399/1000 : ℚ) ≤ (599/1000 : ℚ) ∧ (599/1000 : ℚ) ≤ 1) := by
  have hok : postprocess ⟨1/2, 2/5, (416, 416), some ["person"]⟩
      [[[1/2, 1/2, 1/5, 1/5, 0, 9/10]]] =
      .ok [⟨"person", 9/10, 1/5, 1/5, 399/1000, 399/1000, 599/1000, 599/1000⟩] := by
    norm_num [postprocess, decode, decodeOut, decodeRow, np_argmax, argmaxGo,
      pyInt, NMSBoxes, nmsGo, sortDesc, insDesc, getMaxScoreIndex, pairsFrom,
      overlapAt, rectOverlap, area, interArea, assembleGo, lookupLabel,
      Except.map, mkDetection, calculate_relative_coords, clamp01, pyRound3,
      rndHalfEven, dfltBox]
    intro h
    exact absurd h (by decide)
  refine ⟨hok, ?_⟩
  have h := C5_normalization_bounds ⟨1/2, 2/5, (416, 416), some ["person"]⟩
    [[[1/2, 1/2, 1/5, 1/5, 0, 9/10]]]
    [⟨"person", 9/10, 1/5, 1/5, 399/1000, 399/1000, 599/1000, 599/1000⟩]
    (by norm_num) (by norm_num)
    (by
      intro out hout det hdet
      simp only [List.mem_singleton] at hout
      rw [hout] at hdet
      simp only [List.mem_singleton] at hdet
      rw [hdet]
      norm_num)
    hok
    ⟨"person", 9/10, 1/5, 1/5, 399/1000, 399/1000, 599/1000, 599/1000⟩
    (by simp)
  simpa using h

/-- C6 (counterexample): a row whose class-score sub-vector is empty (five
fields, so `detection[5:]` is empty) makes decoding FAIL with the
`ValueError` of `np.argmax` on an empty sequence — the row is not skipped. -/
theorem C6_counterexample :
    decode (1/2) (416, 416) [[[1/2, 1/2, 1/5, 1/5, 9/10]]] =
      .error .valueError := by
  norm_num [decode, decodeOut, decodeRow, np_argmax]

/-- C6 (amended): whenever any row of any output tensor has an empty
class-score sub-vector, the whole decode phase fails with the `ValueError`
of `np.argmax`; in particular no Candidate (with class 0 and confidence 0 or
otherwise) is produced for such a row. -/
theorem C6_amended (thr : ℚ) (res : ℤ × ℤ) (outs : List (List (List ℚ)))
    (out : List (List ℚ)) (det : List ℚ) (hout : out ∈ outs) (hdet : det ∈ out)
    (hnil : det.drop 5 = []) :
    decode thr res outs = .error .valueError ∧
    ∀ cands, decode thr res outs ≠ .ok cands := by
  have h := @decode_bad thr res outs out det hout hdet hnil
  exact ⟨h, fun cands hc => by rw [h] at hc; exact absurd hc (by simp)⟩

/-- Witness for C6: a concrete 5-field row makes the concrete decode call
fail with `ValueError`. -/
theorem C6_amended_witness :
    decode (1/2) (416, 416) [[[1/2, 1/2, 1/5, 1/5, 9/10]]] =
      .error .valueError ∧ ([1/2, 1/2, 1/5, 1/5, 9/10] : List ℚ).drop 5 = [] :=
  ⟨(C6_amended (1/2) (416, 416) [[[1/2, 1/2, 1/5, 1/5, 9/10]]]
      [[1/2, 1/2, 1/5, 1/5, 9/10]] [1/2, 1/2, 1/5, 1/5, 9/10]
      (by simp) (by simp) (by simp)).1, by simp⟩

/-- A pairwise relation holds along a list once it holds for every pair of
distinct members and the list has pairwise-distinct members. -/
theorem pairwise_of_forall_ne {l : List ℕ} {P : ℕ → ℕ → Prop}
    (hne : List.Pairwise (fun a b => a ≠ b) l)
    (h : ∀ x ∈ l, ∀ y ∈ l, x ≠ y → P x y) : List.Pairwise P l := by
  induction l with
  | nil => exact List.Pairwise.nil
  | cons a rest ih =>
    rcases List.pairwise_cons.mp hne with ⟨h1, h2⟩
    refine List.pairwise_cons.mpr ⟨?_, ?_⟩
    · intro b hb
      exact h a (List.mem_cons_self a rest) b (List.mem_cons_of_mem a hb)
        (h1 b hb)
    · exact ih h2 (fun x hx y hy hxy =>
        h x (List.mem_cons_of_mem a hx) y (List.mem_cons_of_mem a hy) hxy)

/-- C7 (counterexample): two zero-area candidates at different positions have
IoU 0 under the spec's definition, yet OpenCV's overlap counts a degenerate
pair as fully overlapping, so suppression drops the second candidate instead
of keeping both. -/
theorem C7_counterexample :
    claimIoU ⟨0, 0, 0, 0⟩ ⟨5, 5, 0, 0⟩ = 0 ∧
    NMSBoxes [⟨0, 0, 0, 0⟩, ⟨5, 5, 0, 0⟩] [9/10, 8/10] (1/2) (2/5) = [0] := by
  constructor <;>
    norm_num [NMSBoxes, nmsGo, sortDesc, insDesc, getMaxScoreIndex, pairsFrom,
      overlapAt, rectOverlap, claimIoU, area, interArea, dfltBox]

/-- C7 (amended): when every candidate box has positive area, the boxes are
pairwise non-overlapping (IoU 0), every confidence exceeds the score
threshold passed to NMS (as the pipeline guarantees) and the NMS threshold
is nonnegative, suppression keeps every candidate and the kept sequence is
ordered by non-increasing confidence. -/
theorem C7_amended (cands : List Candidate) (st nt : ℚ) (hnt : 0 ≤ nt)
    (hpos : ∀ c ∈ cands, 0 < area c.box)
    (hscore : ∀ c ∈ cands, st < c.confidence)
    (hdisj : ∀ i j, i < cands.length → j < cands.length → i ≠ j →
      claimIoU ((cands.map fun c => c.box).getD i dfltBox)
        ((cands.map fun c => c.box).getD j dfltBox) = 0) :
    (NMSBoxes (cands.map fun c => c.box) (cands.map fun c => c.confidence)
        st nt).length = cands.length ∧
    (∀ i, i < cands.length → i ∈ NMSBoxes (cands.map fun c => c.box)
        (cands.map fun c => c.confidence) st nt) ∧
    List.Pairwise (fun i j => (cands.map fun c => c.confidence).getD j 0 ≤
        (cands.map fun c => c.confidence).getD i 0)
      (NMSBoxes (cands.map fun c => c.box)
        (cands.map fun c => c.confidence) st nt) := by
  have hslen : (cands.map fun c => c.confidence).length = cands.length :=
    List.length_map _ _
  have hblen : (cands.map fun c => c.box).length = cands.length :=
    List.length_map _ _
  have hfilter : getMaxScoreIndex (cands.map fun c => c.confidence) st =
      pairsFrom 0 (cands.map fun c => c.confidence) := by
    unfold getMaxScoreIndex
    refine List.filter_eq_self.mpr ?_
    intro p hp
    have hmem := mem_pairsFrom_snd_mem hp
    rcases List.mem_map.mp hmem with ⟨c, hc, hcp⟩
    exact decide_eq_true (by rw [← hcp]; exact hscore c hc)
  have hsnd : ∀ p ∈ sortDesc (pairsFrom 0 (cands.map fun c => c.confidence)),
      p.2 = (cands.map fun c => c.confidence).getD p.1 0 := by
    intro p hp
    have hp2 := (sortDesc_perm _).mem_iff.mp hp
    have := mem_pairsFrom_snd_getD hp2
    simpa using this
  have hfst : ∀ x ∈ (sortDesc (pairsFrom 0
      (cands.map fun c => c.confidence))).map (fun p => p.1),
      x < cands.length := by
    intro x hx
    rcases List.mem_map.mp hx with ⟨p, hp, hpx⟩
    have hp2 := (sortDesc_perm _).mem_iff.mp hp
    have := mem_pairsFrom_fst_lt hp2
    rw [hslen] at this
    omega
  have hnodup : List.Pairwise (fun a b => a ≠ b)
      ((sortDesc (pairsFrom 0 (cands.map fun c => c.confidence))).map
        (fun p => p.1)) := by
    rw [List.pairwise_map]
    refine ((sortDesc_perm _).pairwise_iff ?_).mpr ?_
    · intro x y hxy
      exact hxy.symm
    · exact pairsFrom_fst_pairwise 0 _
  have hboxpos : ∀ x, x < cands.length →
      0 < area ((cands.map fun c => c.box).getD x dfltBox) := by
    intro x hx
    have hmem := getD_mem_of_lt (cands.map fun c => c.box) x dfltBox
      (by rw [hblen]; exact hx)
    rcases List.mem_map.mp hmem with ⟨c, hc, hcb⟩
    rw [← hcb]
    exact hpos c hc
  have hgood : ∀ x ∈ (sortDesc (pairsFrom 0
      (cands.map fun c => c.confidence))).map (fun p => p.1),
      ∀ y ∈ (sortDesc (pairsFrom 0
        (cands.map fun c => c.confidence))).map (fun p => p.1),
      x ≠ y → overlapAt (cands.map fun c => c.box) x y ≤ nt := by
    intro x hx y hy hxy
    have hxl := hfst x hx
    have hyl := hfst y hy
    unfold overlapAt
    rw [rectOverlap_eq_claimIoU_of_pos (hboxpos x hxl) (hboxpos y hyl)]
    rw [hdisj x y hxl hyl hxy]
    exact hnt
  have hkept : NMSBoxes (cands.map fun c => c.box)
      (cands.map fun c => c.confidence) st nt =
      (sortDesc (pairsFrom 0 (cands.map fun c => c.confidence))).map
        (fun p => p.1) := by
    unfold NMSBoxes
    rw [hfilter]
    rw [nmsGo_all _ [] (fun i _ k hk => absurd hk (List.not_mem_nil k))
      (pairwise_of_forall_ne hnodup hgood)]
    rfl
  refine ⟨?_, ?_, ?_⟩
  · rw [hkept, List.length_map, (sortDesc_perm _).length_eq,
      pairsFrom_length, hslen]
  · intro i hi
    rw [hkept]
    have hip : ((0 + i : ℕ), (cands.map fun c => c.confidence).getD i 0) ∈
        pairsFrom 0 (cands.map fun c => c.confidence) :=
      pairsFrom_mem 0 (by rw [hslen]; exact hi)
    have hip2 := (sortDesc_perm _).mem_iff.mpr hip
    exact List.mem_map.mpr ⟨_, hip2, by simp⟩
  · rw [hkept]
    exact pairwise_map_fst_score hsnd (sortDesc_sorted _)

/-- Two concrete disjoint positive-area candidates used to exercise the
disjoint-suppression property. -/
def twoDisjoint : List Candidate :=
  [⟨0, 9/10, ⟨0, 0, 10, 10⟩⟩, ⟨1, 8/10, ⟨20, 20, 10, 10⟩⟩]

/-- Witness for C7: on two concrete disjoint positive-area candidates, both
are kept, in order of descending confidence. -/
theorem C7_amended_witness :
    (NMSBoxes (twoDisjoint.map fun c => c.box)
        (twoDisjoint.map fun c => c.confidence) (1/2) (2/5)).length = 2 ∧
    0 ∈ NMSBoxes (twoDisjoint.map fun c => c.box)
        (twoDisjoint.map fun c => c.confidence) (1/2) (2/5) ∧
    1 ∈ NMSBoxes (twoDisjoint.map fun c => c.box)
        (twoDisjoint.map fun c => c.confidence) (1/2) (2/5) := by
  have h := C7_amended twoDisjoint (1/2) (2/5) (by norm_num)
    (by
      intro c hc
      simp only [twoDisjoint, List.mem_cons, List.not_mem_nil, or_false] at hc
      rcases hc with h | h <;> rw [h] <;> decide)
    (by
      intro c hc
      simp only [twoDisjoint, List.mem_cons, List.not_mem_nil, or_false] at hc
      rcases hc with h | h <;> rw [h] <;> norm_num)
    (by
      intro i j hi hj hij
      simp only [twoDisjoint, List.length_cons, List.length_nil] at hi hj
      interval_cases i <;> interval_cases j <;>
        first
        | exact absurd rfl hij
        | norm_num [twoDisjoint, claimIoU, area, interArea, dfltBox])
  have hlen : twoDisjoint.length = 2 := by simp [twoDisjoint]
  exact ⟨by rw [h.1, hlen], h.2.1 0 (by rw [hlen]; omega),
    h.2.1 1 (by rw [hlen]; omega)⟩

/-- C8 (counterexample): `__init__` performs no validation: constructing with
confidence threshold 2, NMS threshold -1 and resolution (0, 0) succeeds and
stores exactly those values, instead of failing with a ConfigurationError. -/
theorem C8_counterexample :
    ObjectDetection_init 2 (-1) (0, 0) none =
      { confThreshold := 2, nmsThreshold := -1, model_res := (0, 0),
        classes := none } := rfl

/-- C8 (amended): construction never fails and never checks its parameters:
for every threshold, NMS threshold, resolution and class table, the stored
configuration is exactly the given values. -/
theorem C8_amended (thr nms : ℚ) (model_res : ℤ × ℤ)
    (classes : Option (List String)) :
    ObjectDetection_init thr nms model_res classes =
      { confThreshold := thr, nmsThreshold := nms, model_res := model_res,
        classes := classes } := rfl

/-- C9 (counterexample): with a two-class network a complete row has
5 + 2 = 7 fields, yet a 6-field row (fewer fields than `5 + number_of_classes`)
decodes successfully into a candidate — no error is raised. -/
theorem C9_counterexample :
    ([1/2, 1/2, 1/5, 1/5, 0, 9/10] : List ℚ).length < 5 + 2 ∧
    decode (1/2) (416, 416) [[[1/2, 1/2, 1/5, 1/5, 0, 9/10]]] =
      .ok [⟨0, 9/10, ⟨166, 166, 83, 83⟩⟩] := by
  refine ⟨by simp, ?_⟩
  norm_num [decode, decodeOut, decodeRow, np_argmax, argmaxGo, pyInt]

/-- C9 (amended): decoding fails exactly when some row has fewer than 6
fields, and then with `np.argmax`'s `ValueError` rather than a dedicated
InvalidInput check: (i) any row with fewer than 6 fields aborts the whole
decode with `ValueError`; (ii) conversely, whenever decode fails, the error
is that `ValueError` and some row has fewer than 6 fields; (iii) every
output whose rows all have at least 6 fields decodes without error — even
rows with fewer than `5 + number_of_classes` fields, since the code never
consults the class count. -/
theorem C9_amended (thr : ℚ) (res : ℤ × ℤ) :
    (∀ (outs : List (List (List ℚ))) (out : List (List ℚ)) (det : List ℚ),
      out ∈ outs → det ∈ out → det.length < 6 →
      decode thr res outs = .error .valueError) ∧
    (∀ (outs : List (List (List ℚ))) (e : PErr),
      decode thr res outs = .error e →
      e = .valueError ∧ ∃ out ∈ outs, ∃ det ∈ out, det.length < 6) ∧
    (∀ outs : List (List (List ℚ)),
      (∀ out ∈ outs, ∀ det ∈ out, 6 ≤ det.length) →
      ∃ cands, decode thr res outs = .ok cands) := by
  refine ⟨?_, ?_, ?_⟩
  · intro outs out det hout hdet hlen
    refine decode_bad hout hdet ?_
    rw [List.drop_eq_nil_iff]
    omega
  · intro outs e h
    refine ⟨decode_err h, ?_⟩
    rcases decode_error_short h with ⟨out, hout, det, hdet, hnil⟩
    rw [List.drop_eq_nil_iff] at hnil
    exact ⟨out, hout, det, hdet, by omega⟩
  · intro outs h
    refine decode_ok_of_long ?_
    intro out hout det hdet
    rw [ne_eq, List.drop_eq_nil_iff]
    have := h out hout det hdet
    omega

/-- Witness for C9: a concrete 3-field row aborts the concrete decode call,
and a concrete output of one 6-field row decodes without error. -/
theorem C9_amended_witness :
    decode (1/2) (416, 416) [[[1, 2, 3]]] = .error .valueError ∧
    ([1, 2, 3] : List ℚ).length < 6 ∧
    (∃ cands, decode (1/2) (416, 416) [[[1/2, 1/2, 1/5, 1/5, 0, 9/10]]] =
      .ok cands) :=
  ⟨(C9_amended (1/2) (416, 416)).1 [[[1, 2, 3]]] [[1, 2, 3]] [1, 2, 3]
      (by simp) (by simp) (by simp),
   by simp,
   (C9_amended (1/2) (416, 416)).2.2 [[[1/2, 1/2, 1/5, 1/5, 0, 9/10]]]
     (by
       intro out hout det hdet
       simp only [List.mem_singleton] at hout
       rw [hout] at hdet
       simp only [List.mem_singleton] at hdet
       rw [hdet]
       simp)⟩

/-- C10: `return_objects` always hands inference a blob built at the fixed
spatial size 320x320, while the decode phase scales geometry by the
configured `model_res` — at 416x416 the same row decodes to different pixels
than at 320x320, so decode pixels match the network resolution only when
`model_res = (320, 320)`. -/
theorem C10_fixed_blob_size :
    (∀ (cfg : Config) (infer : ℤ × ℤ → List (List (List ℚ))),
      return_objects cfg infer = postprocess cfg (infer (320, 320))) ∧
    decodeRow (1/2) (416, 416) [1/2, 1/2, 1/5, 1/5, 0, 9/10, 1/10] ≠
      decodeRow (1/2) (320, 320) [1/2, 1/2, 1/5, 1/5, 0, 9/10, 1/10] ∧
    (∀ cfg : Config, cfg.model_res = (inpWidth, inpHeight) ↔
      cfg.model_res = (320, 320)) := by
  refine ⟨fun cfg infer => rfl, ?_, fun cfg => Iff.rfl⟩
  norm_num [decodeRow, np_argmax, argmaxGo, pyInt]

end Darknet
